import Mathlib

/-!
Verification development for the ARCS robot perception-and-safety core.

The definitions below are a shallow embedding of the Python sources:

* `Scanner`  embeds `src/core/scanner.py` (`LidarScanner.analyze_gap`).
  Python floats are modelled as exact rationals; `np.percentile` (linear
  interpolation) and the 3-point `np.convolve` moving average are spelled
  out.  The `raw_profile` visualization field of the returned dict is the
  pair of arrays the function itself computed and is not modelled.
* `Detector` embeds `src/obstacle_detection.py` (`ObstacleDetector`).
  The frame is modelled after edge detection: `cv2.Canny` is an opaque
  image-to-binary-image transform, so a frame enters the embedding as the
  binary edge map it produces, together with its width and height.  The
  visualization overlay (an output artifact only) is not modelled.
  Chunk averages are exact rationals.  The instance field
  `block_history` (a `deque(maxlen=12)`) is threaded explicitly.
* `Slam` embeds the pose update of `src/RoboCrew/src/slam.py`.  The
  OpenCV optical-flow pipeline is opaque, so its outcome per frame (a
  heading delta and a forward-distance delta, both zero when no usable
  transform was found) enters the embedding as data.  Angles are real
  numbers; `math.atan2(sin t, cos t)` is `Complex.arg` of the unit
  vector of `t`.
* `Motion`  embeds `src/RoboCrew/src/robocrew/robots/XLeRobot/tools.py`
  (`_interruptible_sleep` and the four motion primitives).  Real time is
  discretized into the 0.1 s polling ticks of the source loop; the
  per-tick environment (the global `ai_enabled` flag and the outcome of
  the continuous safety re-check, which wraps opaque camera and detector
  state) enters as data.  The watchdog heartbeat write has no effect on
  control flow and is not modelled.
-/

set_option maxRecDepth 4000

attribute [local semireducible] Rat.add Rat.mul Rat.sub Rat.inv

namespace Scanner

/-- Result dict of `LidarScanner.analyze_gap`.  `fail` carries the
`reason` string and, only for the narrow-gap rejection, the `width_deg`
the source adds to that dict. -/
inductive GapResult where
  | fail (reason : String) (width : Option ℚ)
  | ok (center_angle width_deg left_edge_angle right_edge_angle : ℚ)
      (wall_dists : ℚ × ℚ)
  deriving DecidableEq

/-- `np.percentile(values, q)` with the default linear interpolation:
virtual index `q/100 * (n-1)` into the sorted data. -/
def percentile (values : List ℚ) (q : ℚ) : ℚ :=
  let s := List.insertionSort (fun a b : ℚ => a ≤ b) values
  let pos : ℚ := q / 100 * ((s.length : ℚ) - 1)
  let i : Nat := pos.floor.toNat
  let frac : ℚ := pos - (i : ℚ)
  let lo := s.getD i 0
  let hi := s.getD (i + 1) lo
  lo + frac * (hi - lo)

/-- One output sample of `np.convolve(dists, np.ones(3)/3, mode="same")`:
the zero-padded 3-point moving average. -/
def smooth3 (dists : List ℚ) (i : Nat) : ℚ :=
  ((if i = 0 then 0 else dists.getD (i - 1) 0) + dists.getD i 0
    + dists.getD (i + 1) 0) / 3

/-- The smoothed distance profile `dists_smooth`. -/
def smoothList (dists : List ℚ) : List ℚ :=
  (List.range dists.length).map (smooth3 dists)

/-- Segment start indices: `np.where(np.diff(is_gap) == 1) + 1`, with 0
prepended when the profile opens on a gap. -/
def gapStarts (g : List Bool) : List Nat :=
  let base := ((List.range (g.length - 1)).filter
    (fun i => g.getD i false = false ∧ g.getD (i + 1) false = true)).map (· + 1)
  if g.getD 0 false then 0 :: base else base

/-- Segment end indices: `np.where(np.diff(is_gap) == -1) + 1`, with the
length appended when the profile closes on a gap. -/
def gapEnds (g : List Bool) : List Nat :=
  let base := ((List.range (g.length - 1)).filter
    (fun i => g.getD i false = true ∧ g.getD (i + 1) false = false)).map (· + 1)
  if g.getD (g.length - 1) false then base ++ [g.length] else base

/-- The widest-segment loop: keeps the segment whose angular span
`angles[e-1] - angles[s]` strictly exceeds the best span so far
(initially 0), exactly as the source fold over `zip(starts, ends)`. -/
def bestSegment (angles : List ℚ) (pairs : List (Nat × Nat)) :
    Option (Nat × Nat) × ℚ :=
  pairs.foldl (fun st se =>
    let wdeg := angles.getD (se.2 - 1) 0 - angles.getD se.1 0
    if wdeg > st.2 then (some se, wdeg) else st) (none, 0)

/-- `LidarScanner.analyze_gap`.  The caller-managed buffer is the
argument: a list of `(angle, distance)` samples. -/
def analyze_gap (buffer : List (ℚ × ℚ)) : GapResult :=
  if buffer.length < 10 then .fail "insufficient_data" none
  else
    let data := List.insertionSort (fun a b : ℚ × ℚ => a.1 ≤ b.1) buffer
    let angles := data.map Prod.fst
    let dists := data.map Prod.snd
    let dists_smooth := smoothList dists
    let p20 := percentile dists_smooth 20
    let p80 := percentile dists_smooth 80
    if p80 - p20 < 50 then .fail "no_depth_contrast" none
    else
      let threshold := (p20 + p80) / 2
      let is_gap := dists_smooth.map (fun d => decide (d > threshold))
      let starts := gapStarts is_gap
      let ends := gapEnds is_gap
      if starts.length = 0 then .fail "no_gap_segments" none
      else
        match (bestSegment angles (starts.zip ends)).1 with
        | none => .fail "unknown_error" none
        | some se =>
          let left_angle := angles.getD se.1 0
          let right_angle := angles.getD (se.2 - 1) 0
          let center_angle := (left_angle + right_angle) / 2
          let width_deg := right_angle - left_angle
          if width_deg < 10 then .fail "gap_too_narrow" (some width_deg)
          else
            .ok center_angle width_deg left_angle right_angle
              (dists_smooth.getD (se.1 - 1) 0,
               dists_smooth.getD (min (dists.length - 1) se.2) 0)

/-- `LidarScanner.add_reading`: readings with a null distance are
dropped. -/
def add_reading (buffer : List (ℚ × ℚ)) (angle : ℚ) (distance : Option ℚ) :
    List (ℚ × ℚ) :=
  match distance with
  | none => buffer
  | some d => buffer ++ [(angle, d)]

end Scanner

namespace Detector

/-- A non-null frame after `_detect_edges`: the binary edge map
(`pix y x = true` iff the Canny output is 255 at row y, column x) with
the frame dimensions.  `cv2.bilateralFilter` and `cv2.Canny` are opaque,
so quantifying over all edge maps quantifies over all frames. -/
structure EdgeMap where
  w : Nat
  h : Nat
  pix : Nat → Nat → Bool

/-- `np.count_nonzero(edges)`: the total edge-pixel count of the frame. -/
def totalEdgePixels (em : EdgeMap) : Nat :=
  ((List.range em.h).map
    (fun y => ((List.range em.w).filter (fun x => em.pix y x)).length)).sum

/-- The blindness test of `process`:
`total_edge_pixels < self.min_edge_pixels` with `min_edge_pixels = 200`. -/
def isBlind (em : EdgeMap) : Bool :=
  totalEdgePixels em < 200

/-- The x coordinates sampled by `_scan_columns`: `range(0, w, 5)`. -/
def sampleXs (w : Nat) : List Nat :=
  (List.range ((w + 4) / 5)).map (fun i => 5 * i)

/-- Bottom-up column scan of `_scan_columns`: the largest row index
holding an edge pixel, or 0 when the column has none (the source scans
from `h-1` down and keeps the first hit, which is that maximum). -/
def detectedY (em : EdgeMap) (x : Nat) : Nat :=
  (List.range em.h).foldl (fun acc y => if em.pix y x then max acc y else acc) 0

/-- `_scan_columns`: one `(x, detected_y)` pair per sampled column. -/
def scan_columns (em : EdgeMap) : List (Nat × Nat) :=
  (sampleXs em.w).map (fun x => (x, detectedY em x))

/-- `_get_chunk_average` with `top_n = 2`: mean of the two largest
(closest) row values of the chunk, 0 for an empty chunk. -/
def get_chunk_average (chunk : List (Nat × Nat)) : ℚ :=
  if chunk.isEmpty then 0
  else
    let ys := List.insertionSort (fun a b : Nat => b ≤ a) (chunk.map Prod.snd)
    let top := ys.take 2
    if top.isEmpty then 0 else ((top.sum : Nat) : ℚ) / (top.length : ℚ)

/-- The instantaneous blocked-direction set: membership flags for
FORWARD, LEFT and RIGHT (BACKWARD is never added by the source). -/
structure Blocked where
  fwd : Bool
  left : Bool
  right : Bool
  deriving DecidableEq

/-- The empty blocked set. -/
def noneBlocked : Blocked := ⟨false, false, false⟩

/-- `_determine_blocked_directions`: thresholds shift by +30 in precision
mode, sides use threshold+50, blindness blocks FORWARD outright, and in
precision mode only `c_fwd > 460` blocks FORWARD. -/
def determine_blocked_directions (c_left c_fwd c_right : ℚ)
    (blind precision : Bool) : Blocked :=
  let threshold : ℚ := 420 + (if precision then 30 else 0)
  let side_threshold : ℚ := threshold + 50
  if blind then ⟨true, false, false⟩
  else if precision then ⟨decide (c_fwd > 460), false, false⟩
  else ⟨decide (c_fwd > threshold), decide (c_left > side_threshold),
        decide (c_right > side_threshold)⟩

/-- The left chunk score `c_left` of `process` (first `side_width`
sampled points). -/
def cLeft (em : EdgeMap) : ℚ :=
  let pts := scan_columns em
  let center_width := pts.length / 6
  let side_width := (pts.length - center_width) / 2
  get_chunk_average (pts.take side_width)

/-- The center chunk score `c_fwd` of `process`. -/
def cFwd (em : EdgeMap) : ℚ :=
  let pts := scan_columns em
  let center_width := pts.length / 6
  let side_width := (pts.length - center_width) / 2
  get_chunk_average ((pts.drop side_width).take center_width)

/-- The right chunk score `c_right` of `process`. -/
def cRight (em : EdgeMap) : ℚ :=
  let pts := scan_columns em
  let center_width := pts.length / 6
  let side_width := (pts.length - center_width) / 2
  get_chunk_average (pts.drop (side_width + center_width))

/-- The instantaneous blocked set `instant_blocked` computed by `process`
for a frame, given the `state.precision_mode` flag. -/
def instantBlocked (em : EdgeMap) (precision : Bool) : Blocked :=
  determine_blocked_directions (cLeft em) (cFwd em) (cRight em)
    (isBlind em) precision

/-- Appending to `self.block_history`, a `deque(maxlen=12)`
(`history_len = 12`): keeps the last 12 appended sets. -/
def pushWindow (hist : List Blocked) (b : Blocked) : List Blocked :=
  let h2 := hist ++ [b]
  h2.drop (h2.length - 12)

/-- Pointwise union of two blocked sets (`set.update`). -/
def joinBlocked (a b : Blocked) : Blocked :=
  ⟨a.fwd || b.fwd, a.left || b.left, a.right || b.right⟩

/-- `persistent_blocked`: the union of the history window. -/
def unionBlocked (hist : List Blocked) : Blocked :=
  hist.foldl joinBlocked noneBlocked

/-- The movement actions returned by `process` (`"STOP"` is returned for
a null frame). -/
inductive Action where
  | FORWARD
  | BACKWARD
  | LEFT
  | RIGHT
  | STOP
  deriving DecidableEq

/-- The `safe_actions` list built by `_update_safety_state`: only
BACKWARD when blind, otherwise BACKWARD plus each direction absent from
the persistent blocked set, in source append order. -/
def update_safety_state (blind : Bool) (persistent : Blocked) : List Action :=
  if blind then [.BACKWARD]
  else [.BACKWARD] ++ (if persistent.fwd then [] else [.FORWARD])
    ++ (if persistent.left then [] else [.LEFT])
    ++ (if persistent.right then [] else [.RIGHT])

/-- `ObstacleDetector.process` on a non-null frame: returns the
`safe_actions` list and the updated history buffer.  The overlay and the
metrics dict are visualization/telemetry outputs and are not modelled. -/
def process (em : EdgeMap) (precision : Bool) (hist : List Blocked) :
    List Action × List Blocked :=
  let instant := instantBlocked em precision
  let h2 := pushWindow hist instant
  (update_safety_state (isBlind em) (unionBlocked h2), h2)

/-- `ObstacleDetector.process` including the null-frame guard, which
returns `["STOP"]` and leaves the history untouched. -/
def processFrame (frame : Option EdgeMap) (precision : Bool)
    (hist : List Blocked) : List Action × List Blocked :=
  match frame with
  | none => ([.STOP], hist)
  | some em => process em precision hist

/-- Sequential processing of a list of (frame, precision flag) pairs,
threading the history buffer. -/
def processList (inputs : List (EdgeMap × Bool)) (hist : List Blocked) :
    List Blocked :=
  inputs.foldl (fun h q => (process q.1 q.2 h).2) hist

/-- A clear frame: not blind, and its instantaneous blocked set is
empty. -/
def clearFrame (em : EdgeMap) (precision : Bool) : Prop :=
  isBlind em = false ∧ instantBlocked em precision = noneBlocked

instance (em : EdgeMap) (precision : Bool) :
    Decidable (clearFrame em precision) := by
  unfold clearFrame; infer_instance

/-- The bottom mask of `_compute_precision_guidance` step 1: points with
`y > 420` are discarded (treated as no obstacle). -/
def maskY (y : Nat) : Nat :=
  if y > 420 then 0 else y

/-- Step 1 of `_compute_precision_guidance`: the dense pseudo-scan built
from the sparse edge points, each point filling columns
`[max(0, x-2), min(w, x+3))` with the elementwise maximum of its masked
row value.  The source applies the points in list order with
`np.maximum`; the fold below does the same. -/
def buildScan (w : Nat) (pts : List (Nat × Nat)) : Nat → Nat :=
  pts.foldl (fun f p => fun t =>
    if p.1 - 2 ≤ t ∧ t < min w (p.1 + 3) then max (f t) (maskY p.2)
    else f t) (fun _ => 0)

/-- The safety-bubble radius `int(30 + (y - 300) * 0.2)` for a close
obstacle (`y > 300`).  For the attainable values `300 < y ≤ 420` the
float expression truncates to exactly `30 + (y - 300) / 5` in integer
pixels. -/
def bubbleRadius (y : Nat) : Nat :=
  30 + (y - 300) / 5

/-- Step 2 of `_compute_precision_guidance`: every sampled column
(`range(0, w, 5)`) whose original scan value exceeds 300 stamps the
interval `[max(0, x-radius), min(w, x+radius))` of the inflated scan
with the elementwise maximum of 480.  The source loop reads the
original `scan` and writes `inflated_scan`; the fold below evaluates
that loop at one column `t`. -/
def inflateScan (scan : Nat → Nat) (w : Nat) (t : Nat) : Nat :=
  (sampleXs w).foldl (fun v x =>
    if scan x > 300 ∧ x - bubbleRadius (scan x) ≤ t
        ∧ t < min w (x + bubbleRadius (scan x))
    then max v 480 else v) (scan t)

/-- The pseudo-scan of a frame: `buildScan` over its sampled edge
points. -/
def frameScan (em : EdgeMap) : Nat → Nat :=
  buildScan em.w (scan_columns em)

end Detector

namespace Motion

/-- `robot_state.movement`: the four direction flags. -/
structure MovementCommand where
  forward : Bool
  backward : Bool
  left : Bool
  right : Bool
  deriving DecidableEq

/-- The all-false command written on emergency stop and on primitive
completion. -/
def clearCmd : MovementCommand := ⟨false, false, false, false⟩

/-- The per-tick environment of `_interruptible_sleep`: the global
`robot_state.ai_enabled` flag as observed at each tick, and whether the
continuous safety re-check fires at that tick (frame available, detector
available, no exception, and FORWARD absent from its safe actions). -/
structure TickEnv where
  aiEnabled : Nat → Bool
  safetyBlocked : Nat → Bool

/-- Outcome of `_interruptible_sleep`: `True` (completed) or `False`
(interrupted). -/
inductive SleepOutcome where
  | completed
  | interrupted
  deriving DecidableEq

/-- `_interruptible_sleep` with the 0.1 s `check_interval` as the unit
of time: `ticksLeft` iterations remain, `t` is the index of the current
tick.  Each iteration first checks `ai_enabled` (hard stop: clear the
movement command and return `False`), then runs the safety re-check for
forward motion, then sleeps one tick.  Returns the outcome, the
movement command as left by the loop, and the number of ticks slept. -/
def sleepLoop (env : TickEnv) (checkSafety : Bool) (mv : MovementCommand) :
    Nat → Nat → SleepOutcome × MovementCommand × Nat
  | 0, _ => (.completed, mv, 0)
  | n + 1, t =>
    if env.aiEnabled t = false then (.interrupted, clearCmd, 0)
    else if checkSafety && env.safetyBlocked t then (.interrupted, clearCmd, 0)
    else
      let r := sleepLoop env checkSafety mv n (t + 1)
      (r.1, r.2.1, r.2.2 + 1)

/-- The four motion primitives of `tools.py`. -/
inductive PrimKind where
  | forward
  | backward
  | turnLeft
  | turnRight
  deriving DecidableEq

/-- The movement command each primitive writes before sleeping. -/
def commandFor : PrimKind → MovementCommand
  | .forward => ⟨true, false, false, false⟩
  | .backward => ⟨false, true, false, false⟩
  | .turnLeft => ⟨false, false, true, false⟩
  | .turnRight => ⟨false, false, false, true⟩

/-- The string result of a primitive: duration expiry vs the
emergency-stop message. -/
inductive MoveResult where
  | completed
  | emergencyStopped
  deriving DecidableEq

/-- A motion primitive (`move_forward`, `move_backward`, `turn_left`,
`turn_right`): writes its movement command, runs the interruptible sleep
(with the continuous safety check only for forward motion), writes the
all-false command, and reports emergency stop when the sleep was
interrupted.  Returns the result, the final movement command, and the
number of ticks slept. -/
def runPrimitive (kind : PrimKind) (ticks : Nat) (env : TickEnv) :
    MoveResult × MovementCommand × Nat :=
  let r := sleepLoop env (decide (kind = .forward)) (commandFor kind) ticks 0
  ((if r.1 = .completed then .completed else .emergencyStopped),
    clearCmd, r.2.2)

end Motion

namespace Slam

open Real

/-- `math.atan2(math.sin(t), math.cos(t))`: the normalization step of
`SimpleSLAM.process`, as the principal argument of the unit vector of
`t`. -/
noncomputable def wrapAngle (t : ℝ) : ℝ :=
  Complex.arg ⟨Real.cos t, Real.sin t⟩

/-- The SLAM pose: `(x, y, theta)` in the world frame. -/
structure Pose where
  x : ℝ
  y : ℝ
  theta : ℝ

/-- The initial pose of `SimpleSLAM.__init__`: origin, pointing up. -/
noncomputable def initPose : Pose :=
  ⟨0, 0, -(Real.pi / 2)⟩

/-- The per-frame outcome of the opaque optical-flow pipeline: the
heading delta `dtheta` and the visual forward distance `vo_dist`, both
zero when no usable transform was estimated. -/
structure SlamObs where
  dtheta : ℝ
  voDist : ℝ

/-- `cmd_v` of the motion model: 0.1 for forward, then overwritten with
-0.1 for backward (source order), else 0. -/
noncomputable def cmdV (cmd : Option Motion.MovementCommand) : ℝ :=
  match cmd with
  | none => 0
  | some c => if c.backward then -0.1 else if c.forward then 0.1 else 0

/-- `cmd_w` of the motion model: right (0.15) overrides left (-0.15) in
source order. -/
noncomputable def cmdW (cmd : Option Motion.MovementCommand) : ℝ :=
  match cmd with
  | none => 0
  | some c => if c.right then 0.15 else if c.left then -0.15 else 0

/-- The pose update of `SimpleSLAM.process`: integrate the heading delta
(visual estimate when above the 0.001 noise floor, else commanded),
normalize theta, blend the translation estimates, and advance the
position along the new heading. -/
noncomputable def slamStep (p : Pose) (obs : SlamObs)
    (cmd : Option Motion.MovementCommand) : Pose :=
  let cv := cmdV cmd
  let cw := cmdW cmd
  let thetaRaw := if |obs.dtheta| > 0.001 then p.theta + obs.dtheta
    else p.theta + cw
  let theta2 := wrapAngle thetaRaw
  let distance := if |obs.voDist| > 0.001 then
      (if cv ≠ 0 then (obs.voDist + cv) / 2 else obs.voDist)
    else cv
  ⟨p.x + distance * Real.cos theta2, p.y + distance * Real.sin theta2, theta2⟩

/-- Processing a sequence of frames: fold the pose update over the
per-frame observations and movement commands, from the initial pose. -/
noncomputable def slamRun
    (inputs : List (SlamObs × Option Motion.MovementCommand)) : Pose :=
  inputs.foldl (fun p q => slamStep p q.1 q.2) initPose

end Slam

namespace Inputs

/-- A 5 x 5 frame with no edge pixels at all: total edge count 0, far
below the blindness threshold of 200. -/
def blindMap : Detector.EdgeMap := ⟨5, 5, fun _ _ => false⟩

/-- A 5 x 220 frame whose top 200 rows are solid edges: 1000 edge
pixels (not blind), every detected row is 199, far from every obstacle
threshold, so its instantaneous blocked set is empty. -/
def clearMap : Detector.EdgeMap := ⟨5, 220, fun y _ => decide (y < 200)⟩

/-- A 5 x 320 frame with a single edge row at y = 310: its pseudo-scan
value at the sampled column 0 is 310, inside the close-obstacle band. -/
def nearMap : Detector.EdgeMap := ⟨5, 320, fun y _ => decide (y = 310)⟩

/-- A full 12-entry history in which the second-oldest entry blocks
FORWARD: the first `process` call on a clear frame keeps that entry in
the window, the second call evicts it. -/
def histC8 : List Detector.Blocked :=
  Detector.noneBlocked :: (⟨true, false, false⟩ : Detector.Blocked)
    :: List.replicate 10 Detector.noneBlocked

/-- Sweep buffer realizing the profile of the spec example: angles
0..40, distance 300 on the gap regions [10, 30] and [35, 38], distance
100 (wall) elsewhere. -/
def gapBuffer : List (ℚ × ℚ) :=
  (List.range 41).map (fun a =>
    ((a : ℚ), if (10 ≤ a ∧ a ≤ 30) ∨ (35 ≤ a ∧ a ≤ 38) then 300 else 100))

/-- Ten readings all at angle 0: five at distance 0 then five at
distance 600.  High contrast, one gap segment, but the segment has zero
angular width, so the widest-segment loop keeps no segment. -/
def zeroAngleBuffer : List (ℚ × ℚ) :=
  (List.replicate 5 ((0 : ℚ), (0 : ℚ)))
    ++ (List.replicate 5 ((0 : ℚ), (600 : ℚ)))

/-- Ten readings of constant distance 100 at angles 0..9: the smoothed
profile has a 20th/80th percentile spread of 20/3, below the contrast
threshold of 50. -/
def flatBuffer : List (ℚ × ℚ) :=
  (List.range 10).map (fun a => ((a : ℚ), (100 : ℚ)))

/-- A tick environment in which the AI-enabled flag flips to false from
tick 3 on and the safety re-check never fires. -/
def envC2 : Motion.TickEnv :=
  ⟨fun t => decide (t < 3), fun _ => false⟩

end Inputs

namespace Detector

/-- The four movement directions of the contract (the `"STOP"` sentinel
for a null frame is not a direction). -/
def allDirections : List Action :=
  [Action.FORWARD, Action.BACKWARD, Action.LEFT, Action.RIGHT]

/-- Whether the persistent blocked set excludes a direction: BACKWARD is
never excluded, the others follow their membership flag. -/
def blockedDir (b : Blocked) : Action → Bool
  | .FORWARD => b.fwd
  | .LEFT => b.left
  | .RIGHT => b.right
  | .BACKWARD => false
  | .STOP => false

end Detector

open Detector Scanner Motion Slam Inputs

theorem unionBlocked_foldl (l : List Blocked) (i : Blocked) :
    l.foldl joinBlocked i
      = ⟨i.fwd || l.any (fun b => b.fwd), i.left || l.any (fun b => b.left),
         i.right || l.any (fun b => b.right)⟩ := by
  induction l generalizing i with
  | nil => simp
  | cons a l ih =>
    simp only [List.foldl_cons, ih, List.any_cons]
    cases i with
    | mk f lt rt =>
      simp [joinBlocked, Bool.or_assoc]

theorem unionBlocked_eq_any (l : List Blocked) :
    unionBlocked l
      = ⟨l.any (fun b => b.fwd), l.any (fun b => b.left),
         l.any (fun b => b.right)⟩ := by
  simpa [unionBlocked, noneBlocked] using unionBlocked_foldl l noneBlocked

theorem backward_mem_update (blind : Bool) (u : Blocked) :
    Action.BACKWARD ∈ update_safety_state blind u := by
  cases u with
  | mk f l r => cases blind <;> cases f <;> cases l <;> cases r <;> decide

theorem forward_mem_update (blind : Bool) (u : Blocked) :
    Action.FORWARD ∈ update_safety_state blind u
      ↔ (blind = false ∧ u.fwd = false) := by
  cases u with
  | mk f l r => cases blind <;> cases f <;> cases l <;> cases r <;> decide

theorem mem_update_iff (u : Blocked) (d : Action) :
    d ∈ update_safety_state false u
      ↔ (d ∈ allDirections ∧ blockedDir u d = false) := by
  cases u with
  | mk f l r => cases f <;> cases l <;> cases r <;> cases d <;> decide

/-- C1: a non-null frame whose total edge-pixel count is below the
blindness threshold (min_edge_pixels = 200) yields a permitted list
from which FORWARD is absent, for every history state and every mode
flag. -/
theorem blind_frame_excludes_forward (em : EdgeMap) (precision : Bool)
    (hist : List Blocked) (hblind : totalEdgePixels em < 200) :
    Action.FORWARD ∉ (process em precision hist).1 := by
  have hb : isBlind em = true := by
    simp [isBlind, hblind]
  simp [process, update_safety_state, hb]

/-- Witness for C1 at the all-dark 5 x 5 frame with empty history. -/
theorem blind_frame_excludes_forward_witness :
    totalEdgePixels blindMap < 200
      ∧ Action.FORWARD ∉ (process blindMap false []).1 :=
  ⟨by decide, blind_frame_excludes_forward blindMap false [] (by decide)⟩

/-- C10: when precision mode is active the instantaneous blocked set is
a subset of FORWARD alone; LEFT and RIGHT are never instantaneously
blocked; FORWARD is added exactly when the frame is blind or the center
score exceeds 460; so a side direction can be excluded only through
history entries recorded earlier. -/
theorem precision_instant_subset_forward (em : EdgeMap) :
    (instantBlocked em true).left = false
    ∧ (instantBlocked em true).right = false
    ∧ ((instantBlocked em true).fwd = true
        ↔ (isBlind em = true ∨ cFwd em > 460))
    ∧ (∀ hist, (unionBlocked (process em true hist).2).left = true
        → ∃ b ∈ hist, b.left = true)
    ∧ (∀ hist, (unionBlocked (process em true hist).2).right = true
        → ∃ b ∈ hist, b.right = true) := by
  have hinst : instantBlocked em true
      = (if isBlind em then (⟨true, false, false⟩ : Blocked)
         else ⟨decide (cFwd em > 460), false, false⟩) := by
    simp [instantBlocked, determine_blocked_directions]
  refine ⟨?_, ?_, ?_, ?_, ?_⟩
  · rw [hinst]; cases hb : isBlind em <;> simp
  · rw [hinst]; cases hb : isBlind em <;> simp
  · rw [hinst]; cases hb : isBlind em <;> simp
  · intro hist hl
    have hmem : ∃ b ∈ pushWindow hist (instantBlocked em true),
        b.left = true := by
      have := hl
      rw [show (process em true hist).2
            = pushWindow hist (instantBlocked em true) from rfl,
          unionBlocked_eq_any] at this
      simpa using List.any_eq_true.mp this
    obtain ⟨b, hb, hbl⟩ := hmem
    have hb2 : b ∈ hist ++ [instantBlocked em true] :=
      List.mem_of_mem_drop hb
    rcases List.mem_append.mp hb2 with h | h
    · exact ⟨b, h, hbl⟩
    · exfalso
      have hbe : b = instantBlocked em true := by simpa using h
      rw [hbe, hinst] at hbl
      cases hbb : isBlind em <;> rw [hbb] at hbl <;> simp at hbl
  · intro hist hr
    have hmem : ∃ b ∈ pushWindow hist (instantBlocked em true),
        b.right = true := by
      have := hr
      rw [show (process em true hist).2
            = pushWindow hist (instantBlocked em true) from rfl,
          unionBlocked_eq_any] at this
      simpa using List.any_eq_true.mp this
    obtain ⟨b, hb, hbr⟩ := hmem
    have hb2 : b ∈ hist ++ [instantBlocked em true] :=
      List.mem_of_mem_drop hb
    rcases List.mem_append.mp hb2 with h | h
    · exact ⟨b, h, hbr⟩
    · exfalso
      have hbe : b = instantBlocked em true := by simpa using h
      rw [hbe, hinst] at hbr
      cases hbb : isBlind em <;> rw [hbb] at hbr <;> simp at hbr

/-- Witness for C10: a history whose only entry blocks LEFT explains the
LEFT exclusion after a precision-mode frame. -/
theorem precision_instant_subset_forward_witness :
    ∃ b ∈ [(⟨false, true, false⟩ : Blocked)], b.left = true :=
  (precision_instant_subset_forward blindMap).2.2.2.1
    [⟨false, true, false⟩] (by decide)

/-- C3 counterexample: on a blind frame with empty history the returned
list is only BACKWARD, yet LEFT is one of the four directions and is
absent from the persistent blocked set, so the returned list does not
equal all four directions minus the persistent blocked set. -/
theorem blind_frame_breaks_complement :
    (process blindMap false []).1 = [Action.BACKWARD]
    ∧ ¬ (Action.LEFT ∈ (process blindMap false []).1
        ↔ (Action.LEFT ∈ allDirections
            ∧ blockedDir (unionBlocked (process blindMap false []).2)
                Action.LEFT = false)) := by
  decide

/-- C3 amended: BACKWARD is always permitted; for every non-blind frame
the permitted list equals all four directions minus the persistent
blocked set; for a blind frame the list collapses to BACKWARD alone. -/
theorem permitted_complement_of_persistent (em : EdgeMap)
    (precision : Bool) (hist : List Blocked) :
    Action.BACKWARD ∈ (process em precision hist).1
    ∧ (isBlind em = true → (process em precision hist).1 = [Action.BACKWARD])
    ∧ (isBlind em = false → ∀ d, d ∈ (process em precision hist).1
        ↔ (d ∈ allDirections
            ∧ blockedDir (unionBlocked (process em precision hist).2) d
                = false)) := by
  have hp1 : (process em precision hist).1
      = update_safety_state (isBlind em)
          (unionBlocked (process em precision hist).2) := rfl
  refine ⟨?_, ?_, ?_⟩
  · rw [hp1]; exact backward_mem_update _ _
  · intro hb; rw [hp1, hb]
    cases unionBlocked (process em precision hist).2 with
    | mk f l r => cases f <;> cases l <;> cases r <;> decide
  · intro hb d; rw [hp1, hb]
    exact mem_update_iff _ d

/-- Witness for C3 amended: the non-blind branch evaluated for LEFT on
the clear frame, the blind branch evaluated on the dark frame. -/
theorem permitted_complement_of_persistent_witness :
    (process blindMap false []).1 = [Action.BACKWARD]
    ∧ (Action.LEFT ∈ (process clearMap false []).1
        ↔ (Action.LEFT ∈ allDirections
            ∧ blockedDir (unionBlocked (process clearMap false []).2)
                Action.LEFT = false)) :=
  ⟨(permitted_complement_of_persistent blindMap false []).2.1 (by decide),
   (permitted_complement_of_persistent clearMap false []).2.2 (by decide)
     Action.LEFT⟩

theorem window_drop_absorb {α : Type} (n : Nat) (l r : List α) :
    (l.drop (l.length - n) ++ r).drop
        ((l.drop (l.length - n) ++ r).length - n)
      = (l ++ r).drop ((l ++ r).length - n) := by
  rcases Nat.le_total l.length n with h | h
  · simp [Nat.sub_eq_zero_of_le h]
  · obtain ⟨t, s, rfl, hslen⟩ :
        ∃ t s, l = t ++ s ∧ s.length = n :=
      ⟨l.take (l.length - n), l.drop (l.length - n),
        (List.take_append_drop _ _).symm, by rw [List.length_drop]; omega⟩
    have hdl : (t ++ s).drop ((t ++ s).length - n) = s := by
      have he : (t ++ s).length - n = t.length := by
        rw [List.length_append]; omega
      rw [he, List.drop_left]
    rw [hdl]
    have h1 : (s ++ r).length - n = r.length := by
      rw [List.length_append]; omega
    have h2 : ((t ++ s) ++ r).length - n = t.length + r.length := by
      rw [List.length_append, List.length_append]; omega
    rw [h1, h2, List.append_assoc, List.drop_append]

theorem foldl_pushWindow (bs : List Blocked) (l : List Blocked) :
    bs.foldl pushWindow (l.drop (l.length - 12))
      = (l ++ bs).drop ((l ++ bs).length - 12) := by
  induction bs generalizing l with
  | nil => simp
  | cons c bs ih =>
    have hstep : pushWindow (l.drop (l.length - 12)) c
        = (l ++ [c]).drop ((l ++ [c]).length - 12) := by
      show (l.drop (l.length - 12) ++ [c]).drop
          ((l.drop (l.length - 12) ++ [c]).length - 12) = _
      exact window_drop_absorb 12 l [c]
    rw [List.foldl_cons, hstep]
    have := ih (l ++ [c])
    rw [this, List.append_assoc]
    rfl

theorem processList_clear (inputs : List (EdgeMap × Bool))
    (hcl : ∀ q ∈ inputs, clearFrame q.1 q.2) (h : List Blocked) :
    processList inputs h
      = (List.replicate inputs.length noneBlocked).foldl pushWindow h := by
  induction inputs generalizing h with
  | nil => rfl
  | cons q l ih =>
    have hq := hcl q (List.mem_cons_self q l)
    have hstep : (process q.1 q.2 h).2 = pushWindow h noneBlocked := by
      show pushWindow h (instantBlocked q.1 q.2) = _
      rw [hq.2]
    show processList l (process q.1 q.2 h).2 = _
    rw [hstep, List.length_cons, List.replicate_succ, List.foldl_cons]
    exact ih (fun p hp => hcl p (List.mem_cons_of_mem q hp)) _

/-- C4: after one frame whose instantaneous blocked set contains
FORWARD, every run of subsequent clear (non-blind, empty instantaneous
set) frames keeps FORWARD excluded while the run, counting the frame
being processed, is shorter than the window length 12, and once 12
consecutive clear frames have been processed FORWARD is permitted
again, from any starting history. -/
theorem forward_reblocked_until_window_rolls (h0 : List Blocked)
    (em0 : EdgeMap) (p0 : Bool) (hb : (instantBlocked em0 p0).fwd = true)
    (inputs : List (EdgeMap × Bool))
    (hcl : ∀ q ∈ inputs, clearFrame q.1 q.2)
    (emk : EdgeMap) (pk : Bool) (hk : clearFrame emk pk) :
    (inputs.length + 1 < 12 →
      Action.FORWARD ∉
        (process emk pk (processList inputs (process em0 p0 h0).2)).1)
    ∧ (12 ≤ inputs.length + 1 →
      Action.FORWARD ∈
        (process emk pk (processList inputs (process em0 p0 h0).2)).1) := by
  have hmid : processList inputs (process em0 p0 h0).2
      = ((h0 ++ [instantBlocked em0 p0])
          ++ List.replicate inputs.length noneBlocked).drop
          (((h0 ++ [instantBlocked em0 p0])
            ++ List.replicate inputs.length noneBlocked).length - 12) := by
    have h1 : (process em0 p0 h0).2
        = (h0 ++ [instantBlocked em0 p0]).drop
            ((h0 ++ [instantBlocked em0 p0]).length - 12) := rfl
    rw [processList_clear inputs hcl, h1]
    exact foldl_pushWindow _ _
  have hfin : (process emk pk
        (processList inputs (process em0 p0 h0).2)).2
      = (((h0 ++ [instantBlocked em0 p0])
            ++ List.replicate inputs.length noneBlocked)
          ++ [noneBlocked]).drop
          ((((h0 ++ [instantBlocked em0 p0])
              ++ List.replicate inputs.length noneBlocked)
            ++ [noneBlocked]).length - 12) := by
    have h2 : (process emk pk
          (processList inputs (process em0 p0 h0).2)).2
        = pushWindow (processList inputs (process em0 p0 h0).2)
            (instantBlocked emk pk) := rfl
    rw [h2, hk.2, hmid]
    exact window_drop_absorb 12 _ _
  have hout : (process emk pk
        (processList inputs (process em0 p0 h0).2)).1
      = update_safety_state (isBlind emk)
          (unionBlocked (process emk pk
            (processList inputs (process em0 p0 h0).2)).2) := rfl
  constructor
  · intro hlt
    have hview : (((h0 ++ [instantBlocked em0 p0])
          ++ List.replicate inputs.length noneBlocked) ++ [noneBlocked])
        = h0 ++ ([instantBlocked em0 p0]
            ++ (List.replicate inputs.length noneBlocked
              ++ [noneBlocked])) := by
      simp [List.append_assoc]
    have hble : (h0 ++ ([instantBlocked em0 p0]
          ++ (List.replicate inputs.length noneBlocked
            ++ [noneBlocked]))).length - 12 ≤ h0.length := by
      simp only [List.length_append, List.length_replicate,
        List.length_cons, List.length_nil]
      omega
    have hmem : instantBlocked em0 p0 ∈ (process emk pk
        (processList inputs (process em0 p0 h0).2)).2 := by
      rw [hfin, hview, List.drop_append_of_le_length hble]
      refine List.mem_append.mpr (Or.inr ?_)
      exact List.mem_append.mpr (Or.inl (by simp))
    have hufwd : (unionBlocked (process emk pk
        (processList inputs (process em0 p0 h0).2)).2).fwd = true := by
      rw [unionBlocked_eq_any]
      exact List.any_eq_true.mpr ⟨instantBlocked em0 p0, hmem, hb⟩
    rw [hout, hk.1]
    intro hFmem
    rw [forward_mem_update] at hFmem
    simp [hufwd] at hFmem
  · intro hge
    have hall : ∀ x ∈ (process emk pk
        (processList inputs (process em0 p0 h0).2)).2, x.fwd = false := by
      intro x hx
      rw [hfin, List.append_assoc ((h0 ++ [instantBlocked em0 p0]))] at hx
      have hcnt : ((h0 ++ [instantBlocked em0 p0])
            ++ (List.replicate inputs.length noneBlocked
              ++ [noneBlocked])).length - 12
          = (h0 ++ [instantBlocked em0 p0]).length
            + (((h0 ++ [instantBlocked em0 p0])
                ++ (List.replicate inputs.length noneBlocked
                  ++ [noneBlocked])).length - 12
              - (h0 ++ [instantBlocked em0 p0]).length) := by
        simp only [List.length_append, List.length_replicate,
          List.length_cons, List.length_nil]
        omega
      rw [hcnt, List.drop_append] at hx
      have hxR : x ∈ List.replicate inputs.length noneBlocked
          ++ [noneBlocked] := List.mem_of_mem_drop hx
      rcases List.mem_append.mp hxR with hxx | hxx
      · rw [List.eq_of_mem_replicate hxx]; rfl
      · rw [(by simpa using hxx : x = noneBlocked)]; rfl
    have hufwd2 : (unionBlocked (process emk pk
        (processList inputs (process em0 p0 h0).2)).2).fwd = false := by
      rw [unionBlocked_eq_any]
      exact List.any_eq_false.mpr (fun x hx => by simp [hall x hx])
    rw [hout, hk.1, forward_mem_update]
    exact ⟨rfl, hufwd2⟩

/-- Witness for C4: a blind frame blocks FORWARD, and the very next
clear frame (run length 1 < 12) still has FORWARD excluded. -/
theorem forward_reblocked_until_window_rolls_witness :
    Action.FORWARD ∉
      (process clearMap false
        (processList [] (process blindMap false []).2)).1 :=
  (forward_reblocked_until_window_rolls [] blindMap false (by decide) []
      (fun q hq => absurd hq (List.not_mem_nil q))
      clearMap false (by decide)).1 (by decide)

/-- C8 counterexample: `process` keeps no cache keyed by frame sequence
id.  With a full window whose second-oldest entry blocks FORWARD, a
first call on a clear frame still excludes FORWARD, while an immediate
second call on the same frame evicts that entry and returns a different
permitted list and a different history state. -/
theorem repeated_process_not_cached :
    (process clearMap false (process clearMap false histC8).2).1
      ≠ (process clearMap false histC8).1
    ∧ (process clearMap false (process clearMap false histC8).2).2
      ≠ (process clearMap false histC8).2 := by
  decide

/-- C8 amended: the engine recomputes on every call and appends the
frame instantaneous blocked set to the history each time (no cache);
repeated queries on the same frame return the same permitted list only
as long as the window does not evict, which holds whenever the history
held at most 10 entries before the first call. -/
theorem repeated_process_recomputes (em : EdgeMap) (precision : Bool)
    (hist : List Blocked) (hlen : hist.length ≤ 10) :
    (process em precision (process em precision hist).2).1
      = (process em precision hist).1
    ∧ (process em precision hist).2
      = hist ++ [instantBlocked em precision] := by
  have hpush : ∀ (h : List Blocked) (b : Blocked), h.length ≤ 11 →
      pushWindow h b = h ++ [b] := by
    intro h b hlen2
    show (h ++ [b]).drop ((h ++ [b]).length - 12) = h ++ [b]
    have hz : (h ++ [b]).length - 12 = 0 := by
      simp only [List.length_append, List.length_cons, List.length_nil]
      omega
    rw [hz, List.drop_zero]
  have h2 : (process em precision hist).2
      = hist ++ [instantBlocked em precision] :=
    hpush hist _ (by omega)
  have h3 : (process em precision (process em precision hist).2).2
      = hist ++ [instantBlocked em precision]
          ++ [instantBlocked em precision] := by
    show pushWindow (process em precision hist).2
        (instantBlocked em precision) = _
    rw [h2]
    refine hpush _ _ ?_
    simp only [List.length_append, List.length_cons, List.length_nil]
    omega
  have hu : unionBlocked (hist ++ [instantBlocked em precision]
        ++ [instantBlocked em precision])
      = unionBlocked (hist ++ [instantBlocked em precision]) := by
    rw [unionBlocked_eq_any, unionBlocked_eq_any]
    simp [List.any_append, Bool.or_assoc]
  refine ⟨?_, h2⟩
  show update_safety_state (isBlind em)
        (unionBlocked (process em precision
          (process em precision hist).2).2)
      = update_safety_state (isBlind em)
          (unionBlocked (process em precision hist).2)
  rw [h3, h2, hu]

/-- Witness for C8 amended at the clear frame with empty history. -/
theorem repeated_process_recomputes_witness :
    (process clearMap false (process clearMap false []).2).1
      = (process clearMap false []).1
    ∧ (process clearMap false []).2
      = [] ++ [instantBlocked clearMap false] :=
  repeated_process_recomputes clearMap false [] (by decide)

theorem maskY_le_420 (y : Nat) : maskY y ≤ 420 := by
  unfold maskY
  split <;> omega

theorem sampleXs_lt (w x : Nat) (hx : x ∈ sampleXs w) : x < w := by
  rcases List.mem_map.mp hx with ⟨i, hi, rfl⟩
  have hi2 : i + 1 ≤ (w + 4) / 5 := List.mem_range.mp hi
  have h5 : (i + 1) * 5 ≤ ((w + 4) / 5) * 5 := Nat.mul_le_mul_right 5 hi2
  have hd : ((w + 4) / 5) * 5 ≤ w + 4 := Nat.div_mul_le_self (w + 4) 5
  omega

theorem buildScan_le_420 (w : Nat) (pts : List (Nat × Nat)) (t : Nat) :
    buildScan w pts t ≤ 420 := by
  suffices h : ∀ f : Nat → Nat, (∀ u, f u ≤ 420) →
      (pts.foldl (fun f p => fun t =>
        if p.1 - 2 ≤ t ∧ t < min w (p.1 + 3) then max (f t) (maskY p.2)
        else f t) f) t ≤ 420 by
    exact h (fun _ => 0) (fun _ => Nat.zero_le _)
  induction pts generalizing t with
  | nil => intro f hf; exact hf t
  | cons p ps ih =>
    intro f hf
    refine ih t _ ?_
    intro u
    dsimp only
    split
    · exact max_le (hf u) (maskY_le_420 _)
    · exact hf u

theorem buildScan_ge_init (w : Nat) (pts : List (Nat × Nat))
    (f : Nat → Nat) (t : Nat) :
    f t ≤ (pts.foldl (fun f p => fun t =>
      if p.1 - 2 ≤ t ∧ t < min w (p.1 + 3) then max (f t) (maskY p.2)
      else f t) f) t := by
  induction pts generalizing f with
  | nil => exact le_refl _
  | cons p ps ih =>
    refine le_trans ?_ (ih _)
    dsimp only
    split
    · exact le_max_left _ _
    · exact le_refl _

theorem buildScan_ge_contribution (w : Nat) (pts : List (Nat × Nat))
    (p : Nat × Nat) (hp : p ∈ pts) (t : Nat)
    (hcov : p.1 - 2 ≤ t ∧ t < min w (p.1 + 3)) :
    maskY p.2 ≤ buildScan w pts t := by
  suffices h : ∀ f : Nat → Nat, maskY p.2
      ≤ (pts.foldl (fun f p => fun t =>
        if p.1 - 2 ≤ t ∧ t < min w (p.1 + 3) then max (f t) (maskY p.2)
        else f t) f) t by
    exact h (fun _ => 0)
  induction pts with
  | nil => cases hp
  | cons q qs ih =>
    intro f
    rcases List.mem_cons.mp hp with rfl | hmem
    · refine le_trans ?_ (buildScan_ge_init w qs _ t)
      dsimp only
      rw [if_pos hcov]
      exact le_max_right _ _
    · exact ih hmem _

theorem buildScan_attained (w : Nat) (pts : List (Nat × Nat)) (t : Nat) :
    buildScan w pts t = 0
    ∨ ∃ p ∈ pts, (p.1 - 2 ≤ t ∧ t < min w (p.1 + 3))
        ∧ buildScan w pts t = maskY p.2 := by
  suffices h : ∀ f : Nat → Nat,
      ((pts.foldl (fun f p => fun t =>
          if p.1 - 2 ≤ t ∧ t < min w (p.1 + 3) then max (f t) (maskY p.2)
          else f t) f) t = f t)
      ∨ ∃ p ∈ pts, (p.1 - 2 ≤ t ∧ t < min w (p.1 + 3))
          ∧ (pts.foldl (fun f p => fun t =>
              if p.1 - 2 ≤ t ∧ t < min w (p.1 + 3) then max (f t) (maskY p.2)
              else f t) f) t = maskY p.2 by
    rcases h (fun _ => 0) with h1 | ⟨p, hp, hcov, hval⟩
    · exact Or.inl h1
    · exact Or.inr ⟨p, hp, hcov, hval⟩
  induction pts with
  | nil => intro f; exact Or.inl rfl
  | cons q qs ih =>
    intro f
    rcases ih (fun t => if q.1 - 2 ≤ t ∧ t < min w (q.1 + 3)
        then max (f t) (maskY q.2) else f t) with h1 | ⟨p, hp, hcov, hval⟩
    · by_cases hc : q.1 - 2 ≤ t ∧ t < min w (q.1 + 3)
      · rw [List.foldl_cons] at *
        rw [h1, if_pos hc]
        rcases Nat.le_total (f t) (maskY q.2) with hle | hle
        · exact Or.inr ⟨q, List.mem_cons_self q qs, hc,
            Nat.max_eq_right hle⟩
        · exact Or.inl (Nat.max_eq_left hle)
      · rw [List.foldl_cons] at *
        rw [h1, if_neg hc]
        exact Or.inl rfl
    · exact Or.inr ⟨p, List.mem_cons_of_mem q hp, hcov, hval⟩

theorem inflate_fold_le (w t : Nat) (scan : Nat → Nat)
    (xs : List Nat) (v : Nat) (hv : v ≤ 480) :
    (xs.foldl (fun v x =>
      if scan x > 300 ∧ x - bubbleRadius (scan x) ≤ t
          ∧ t < min w (x + bubbleRadius (scan x))
      then max v 480 else v) v) ≤ 480 := by
  induction xs generalizing v with
  | nil => exact hv
  | cons x xs ih =>
    refine ih _ ?_
    dsimp only
    split
    · omega
    · exact hv

theorem inflate_fold_ge_init (w t : Nat) (scan : Nat → Nat)
    (xs : List Nat) (v : Nat) :
    v ≤ xs.foldl (fun v x =>
      if scan x > 300 ∧ x - bubbleRadius (scan x) ≤ t
          ∧ t < min w (x + bubbleRadius (scan x))
      then max v 480 else v) v := by
  induction xs generalizing v with
  | nil => exact le_refl _
  | cons x xs ih =>
    refine le_trans ?_ (ih _)
    dsimp only
    split
    · exact le_max_left _ _
    · exact le_refl _

theorem inflate_fold_ge_480 (w t : Nat) (scan : Nat → Nat)
    (xs : List Nat) (v : Nat) (x : Nat) (hx : x ∈ xs)
    (hc : scan x > 300 ∧ x - bubbleRadius (scan x) ≤ t
        ∧ t < min w (x + bubbleRadius (scan x))) :
    480 ≤ xs.foldl (fun v x =>
      if scan x > 300 ∧ x - bubbleRadius (scan x) ≤ t
          ∧ t < min w (x + bubbleRadius (scan x))
      then max v 480 else v) v := by
  induction xs generalizing v with
  | nil => cases hx
  | cons y ys ih =>
    rcases List.mem_cons.mp hx with rfl | hmem
    · refine le_trans ?_ (inflate_fold_ge_init w t scan ys _)
      dsimp only
      rw [if_pos hc]
      exact le_max_right _ _
    · exact ih _ hmem

/-- C9: in the precision-mode gap steering, every column of the
pseudo-scan whose depth proxy exceeds 300 ends up fully blocked (value
480) in the inflated scan, through a safety bubble whose radius is the
source formula int(30 + 0.2 * (y - 300)), equal in integer pixels to
30 + (y - 300) / 5; the radius is monotone in proximity and is strictly
larger at the maximum attainable proximity 420 than at the minimum
blocking proximity 301. -/
theorem safety_bubble_inflation :
    (∀ (em : EdgeMap) (t : Nat), t < em.w → frameScan em t > 300 →
      inflateScan (frameScan em) em.w t = 480)
    ∧ (∀ y : Nat, bubbleRadius y = 30 + (y - 300) / 5)
    ∧ (∀ y1 y2 : Nat, y1 ≤ y2 → bubbleRadius y1 ≤ bubbleRadius y2)
    ∧ bubbleRadius 301 < bubbleRadius 420 := by
  refine ⟨?_, fun y => rfl, ?_, by decide⟩
  · intro em t ht hgt
    rcases buildScan_attained em.w (scan_columns em) t with h0 | hex
    · rw [show frameScan em t = buildScan em.w (scan_columns em) t
          from rfl, h0] at hgt
      omega
    · obtain ⟨p, hp, hcov, hval⟩ := hex
      obtain ⟨x, hxmem, hpx⟩ := List.mem_map.mp hp
      have hxw : x < em.w := sampleXs_lt em.w x hxmem
      have hx1 : p.1 = x := by rw [← hpx]
      have hscanx : frameScan em x > 300 := by
        have hge : maskY p.2 ≤ buildScan em.w (scan_columns em) x := by
          refine buildScan_ge_contribution em.w _ p hp x ⟨?_, ?_⟩
          · rw [hx1]; exact Nat.sub_le x 2
          · rw [hx1]; exact lt_min hxw (by omega)
        have hvt : frameScan em t = maskY p.2 := hval
        have : frameScan em x = buildScan em.w (scan_columns em) x := rfl
        omega
      have hr2 : 2 ≤ bubbleRadius (frameScan em x) := by
        unfold bubbleRadius; omega
      have hr3 : 3 ≤ bubbleRadius (frameScan em x) := by
        unfold bubbleRadius; omega
      have hcond : frameScan em x > 300
          ∧ x - bubbleRadius (frameScan em x) ≤ t
          ∧ t < min em.w (x + bubbleRadius (frameScan em x)) := by
        refine ⟨hscanx, ?_, ?_⟩
        · have h1 : x - bubbleRadius (frameScan em x) ≤ x - 2 :=
            Nat.sub_le_sub_left hr2 x
          have h2 : p.1 - 2 ≤ t := hcov.1
          rw [hx1] at h2
          omega
        · have h2 : t < min em.w (p.1 + 3) := hcov.2
          rw [hx1] at h2
          have h3 : t < x + 3 := lt_of_lt_of_le h2 (min_le_right _ _)
          exact lt_min ht (by omega)
      refine le_antisymm ?_ ?_
      · exact inflate_fold_le em.w t (frameScan em) _ _
          (le_trans (buildScan_le_420 em.w (scan_columns em) t)
            (by omega))
      · exact inflate_fold_ge_480 em.w t (frameScan em) _ _ x hxmem hcond
  · intro y1 y2 h
    unfold bubbleRadius
    have := Nat.div_le_div_right (c := 5) (Nat.sub_le_sub_right h 300)
    omega

/-- Witness for C9: the frame with an edge row at y = 310 has
pseudo-scan value 310 at column 0, which the theorem inflates to 480;
the radius formula and monotonicity are instantiated at 310 and at the
pair (301, 420). -/
theorem safety_bubble_inflation_witness :
    inflateScan (frameScan nearMap) nearMap.w 0 = 480
    ∧ bubbleRadius 310 = 30 + (310 - 300) / 5
    ∧ bubbleRadius 301 ≤ bubbleRadius 420 :=
  ⟨safety_bubble_inflation.1 nearMap 0 (by decide) (by decide),
   safety_bubble_inflation.2.1 310,
   safety_bubble_inflation.2.2.1 301 420 (by decide)⟩

/-- C5 counterexample: ten readings at a single angle with contrasting
distances make every gap segment have zero angular width, so the
widest-segment loop keeps nothing and `analyze_gap` reports the reason
code unknown_error, which is outside the four codes the claim lists. -/
theorem analyze_gap_unknown_reason :
    Scanner.analyze_gap zeroAngleBuffer
      = Scanner.GapResult.fail "unknown_error" none
    ∧ "unknown_error" ∉ ["insufficient_data", "no_depth_contrast",
        "no_gap_segments", "gap_too_narrow"] := by
  decide

/-- C5 amended: a buffer with fewer than 10 samples fails with
insufficient_data; a buffer whose smoothed 20th/80th percentile spread
is below 50 fails with no_depth_contrast; and every failure reason is
one of insufficient_data, no_depth_contrast, no_gap_segments,
gap_too_narrow, or the additional code unknown_error reachable when all
gap segments have zero angular width. -/
theorem analyze_gap_failure_reasons :
    (∀ buffer : List (ℚ × ℚ), buffer.length < 10 →
      Scanner.analyze_gap buffer
        = Scanner.GapResult.fail "insufficient_data" none)
    ∧ (∀ buffer : List (ℚ × ℚ), ¬ buffer.length < 10 →
      Scanner.percentile (Scanner.smoothList
          ((List.insertionSort (fun a b : ℚ × ℚ => a.1 ≤ b.1) buffer).map
            Prod.snd)) 80
        - Scanner.percentile (Scanner.smoothList
          ((List.insertionSort (fun a b : ℚ × ℚ => a.1 ≤ b.1) buffer).map
            Prod.snd)) 20 < 50 →
      Scanner.analyze_gap buffer
        = Scanner.GapResult.fail "no_depth_contrast" none)
    ∧ (∀ (buffer : List (ℚ × ℚ)) (r : String) (wd : Option ℚ),
      Scanner.analyze_gap buffer = Scanner.GapResult.fail r wd →
      r ∈ ["insufficient_data", "no_depth_contrast", "no_gap_segments",
           "gap_too_narrow", "unknown_error"]) := by
  refine ⟨?_, ?_, ?_⟩
  · intro buffer h
    unfold Scanner.analyze_gap
    rw [if_pos h]
  · intro buffer h hlt
    unfold Scanner.analyze_gap
    rw [if_neg h]
    dsimp only
    rw [if_pos hlt]
  · intro buffer r wd h
    unfold Scanner.analyze_gap at h
    split at h
    · injection h with hr hw
      subst hr
      decide
    · dsimp only at h
      split at h
      · injection h with hr hw
        subst hr
        decide
      · split at h
        · injection h with hr hw
          subst hr
          decide
        · split at h
          · injection h with hr hw
            subst hr
            decide
          · split at h
            · injection h with hr hw
              subst hr
              decide
            · exact absurd h (by simp)

/-- Witness for C5 amended: the empty buffer, the constant-distance
buffer, and the reason-code conjunct applied to the empty buffer. -/
theorem analyze_gap_failure_reasons_witness :
    Scanner.analyze_gap []
      = Scanner.GapResult.fail "insufficient_data" none
    ∧ Scanner.analyze_gap flatBuffer
      = Scanner.GapResult.fail "no_depth_contrast" none
    ∧ "insufficient_data" ∈ ["insufficient_data", "no_depth_contrast",
        "no_gap_segments", "gap_too_narrow", "unknown_error"] :=
  ⟨analyze_gap_failure_reasons.1 [] (by decide),
   analyze_gap_failure_reasons.2.1 flatBuffer (by decide) (by decide),
   analyze_gap_failure_reasons.2.2 [] "insufficient_data" none
     (analyze_gap_failure_reasons.1 [] (by decide))⟩

/-- C6: on the spec profile over angles 0..40 with a 20 degree gap
region [10, 30] and a 3 degree gap [35, 38], the analyzer selects the
widest segment by angular span and returns found with center angle 20
and width 20 (the outer walls smooth to 500/3). -/
theorem widest_segment_selected :
    Scanner.analyze_gap gapBuffer
      = Scanner.GapResult.ok 20 20 10 30 (500/3, 500/3) := by
  decide

theorem sleepLoop_interrupts (env : TickEnv) (cs : Bool)
    (mv : MovementCommand) (n t0 i : Nat) (hi : i < n)
    (hai : env.aiEnabled (t0 + i) = false) :
    ∃ k ≤ i, sleepLoop env cs mv n t0
        = (SleepOutcome.interrupted, clearCmd, k) := by
  induction n generalizing t0 i with
  | zero => omega
  | succ m ih =>
    by_cases h0 : env.aiEnabled t0 = false
    · exact ⟨0, Nat.zero_le _, by simp [sleepLoop, h0]⟩
    · by_cases hs : (cs && env.safetyBlocked t0) = true
      · refine ⟨0, Nat.zero_le _, ?_⟩
        simp only [sleepLoop]
        rw [if_neg h0, if_pos hs]
      · have hipos : 0 < i := by
          rcases Nat.eq_zero_or_pos i with rfl | h
          · rw [Nat.add_zero] at hai
            exact absurd hai h0
          · exact h
        obtain ⟨k, hk, heq⟩ := ih (t0 + 1) (i - 1) (by omega) (by
          have he : t0 + 1 + (i - 1) = t0 + i := by omega
          rw [he]; exact hai)
        refine ⟨k + 1, by omega, ?_⟩
        simp only [sleepLoop]
        rw [if_neg h0, if_neg hs]
        simp [heq]

/-- C2: for each of the four motion primitives, if the global
ai_enabled flag is false at some tick before the duration expires, the
primitive returns the emergency-stop result with the movement command
cleared to all-false, having slept at most up to that tick (so it
unwinds within one tick of the flag flip). -/
theorem primitive_interrupted_on_disable (kind : PrimKind) (ticks : Nat)
    (env : TickEnv) (t : Nat) (ht : t < ticks)
    (hai : env.aiEnabled t = false) :
    ∃ n ≤ t, runPrimitive kind ticks env
        = (MoveResult.emergencyStopped, clearCmd, n) := by
  obtain ⟨k, hk, heq⟩ := sleepLoop_interrupts env
    (decide (kind = PrimKind.forward)) (commandFor kind) ticks 0 t ht
    (by simpa using hai)
  refine ⟨k, hk, ?_⟩
  unfold runPrimitive
  rw [heq]
  simp

/-- Witness for C2: the forward primitive with a 10 tick duration and
the flag flipping at tick 3 stops as an emergency within 3 ticks. -/
theorem primitive_interrupted_on_disable_witness :
    envC2.aiEnabled 3 = false
    ∧ ∃ n ≤ 3, runPrimitive PrimKind.forward 10 envC2
        = (MoveResult.emergencyStopped, clearCmd, n) :=
  ⟨by decide,
   primitive_interrupted_on_disable PrimKind.forward 10 envC2 3
     (by decide) (by decide)⟩

theorem wrapAngle_mem_Ioc (t : ℝ) :
    wrapAngle t ∈ Set.Ioc (-Real.pi) Real.pi :=
  Complex.arg_mem_Ioc _

/-- C7: the SLAM heading theta lies in the interval (-pi, pi] at the
initial pose and after any sequence of process updates, because each
update renormalizes theta through atan2 of its unit vector. -/
theorem slam_theta_in_Ioc :
    initPose.theta ∈ Set.Ioc (-Real.pi) Real.pi
    ∧ ∀ inputs : List (SlamObs × Option Motion.MovementCommand),
      (slamRun inputs).theta ∈ Set.Ioc (-Real.pi) Real.pi := by
  have hp := Real.pi_pos
  have hinit : initPose.theta ∈ Set.Ioc (-Real.pi) Real.pi := by
    constructor
    · show -Real.pi < -(Real.pi / 2)
      linarith
    · show -(Real.pi / 2) ≤ Real.pi
      linarith
  have hstep : ∀ (p : Pose) (q : SlamObs × Option Motion.MovementCommand),
      (slamStep p q.1 q.2).theta ∈ Set.Ioc (-Real.pi) Real.pi := by
    intro p q
    exact Complex.arg_mem_Ioc _
  refine ⟨hinit, ?_⟩
  suffices h : ∀ (l : List (SlamObs × Option Motion.MovementCommand))
      (p : Pose), p.theta ∈ Set.Ioc (-Real.pi) Real.pi →
      (l.foldl (fun p q => slamStep p q.1 q.2) p).theta
        ∈ Set.Ioc (-Real.pi) Real.pi by
    intro inputs
    exact h inputs initPose hinit
  intro l
  induction l with
  | nil => intro p hpi; exact hpi
  | cons q l ih => intro p hpi; exact ih _ (hstep p q)
